import Mathlib

/-!
Verification of the trie auto-suggest core (`src/trie_autosuggest.cpp`).

The C++ core is the `Trie` class: a prefix tree whose nodes hold an
`unordered_map<char, TrieNode*> children` and a `bool isEndOfWord`, plus an
`int wordCount`.  Strings are modelled as `List Char`, the child map as an
association list `List (Char × TrieNode)` (the map's iteration order is
unspecified in C++; the `NodeEquiv` relation below captures invariance under
reordering), and `wordCount` as a `Nat` (it is only ever incremented).
-/

namespace TrieAutosuggest

/-- Model of C `isalpha` on the characters the program feeds it
(ASCII letters in the default locale). -/
def isAlpha (c : Char) : Bool :=
  ('a' ≤ c && c ≤ 'z') || ('A' ≤ c && c ≤ 'Z')

/-- Model of `::tolower` in the default C locale: ASCII uppercase letters map
to lowercase, everything else is unchanged (cf. `Trie::toLower`, line 90). -/
def lowerChar (c : Char) : Char :=
  if 'A' ≤ c && c ≤ 'Z' then Char.ofNat (c.toNat + 32) else c

/-- The whitespace set `" \t\n\r"` used by `Trie::trim` (lines 95, 98). -/
def isSpaceChar (c : Char) : Bool :=
  c = ' ' || c = '\t' || c = '\n' || c = '\r'

/-- `Trie::toLower` (lines 88–92): lowercase every character. -/
def toLower (s : List Char) : List Char :=
  s.map lowerChar

/-- `Trie::trim` (lines 94–100): drop leading and trailing whitespace;
a string with no non-whitespace character becomes empty. -/
def trim (s : List Char) : List Char :=
  ((s.dropWhile isSpaceChar).reverse.dropWhile isSpaceChar).reverse

/-- The normalization `toLower(trim(·))` applied by both `Trie::insert`
(line 110) and `Trie::getSuggestions` (line 135). -/
def cleanText (s : List Char) : List Char :=
  toLower (trim s)

/-- `struct TrieNode` (lines 31–35): a child map and an end-of-word flag.
The `unordered_map` is modelled as an association list. -/
inductive TrieNode where
  | mk : List (Char × TrieNode) → Bool → TrieNode

def TrieNode.children : TrieNode → List (Char × TrieNode)
  | .mk cs _ => cs

def TrieNode.isEndOfWord : TrieNode → Bool
  | .mk _ e => e

/-- `children.find(ch)` on the association-list model: first entry whose key
matches, if any. -/
def findChild : List (Char × TrieNode) → Char → Option TrieNode
  | [], _ => none
  | (k, t) :: rest, c => if k = c then some t else findChild rest c

/-- Replace the value stored under an existing key (the effect on the map of
descending into `children[ch]` and mutating the subtree in place). -/
def replaceChild : List (Char × TrieNode) → Char → TrieNode → List (Char × TrieNode)
  | [], _, _ => []
  | (k, t) :: rest, c, t' =>
    if k = c then (k, t') :: rest else (k, t) :: replaceChild rest c t'

mutual
/-- `Trie::collectSuggestions` (lines 63–71): emit the accumulated path when
the node is terminal, then recurse into every child. -/
def collectSuggestions : TrieNode → List Char → List (List Char)
  | .mk cs e, pre => (if e then [pre] else []) ++ collectChildren cs pre
/-- The `for (const auto& [key, child] : node->children)` loop of
`Trie::collectSuggestions`, over the association-list model of the map. -/
def collectChildren : List (Char × TrieNode) → List Char → List (List Char)
  | [], _ => []
  | (k, t) :: rest, pre => collectSuggestions t (pre ++ [k]) ++ collectChildren rest pre
end

/-- `Trie::searchPrefix` (lines 77–86): follow one edge per character; `none`
models the `nullptr` return. -/
def searchPrefix : TrieNode → List Char → Option TrieNode
  | node, [] => some node
  | node, c :: rest =>
    match findChild node.children c with
    | none => none
    | some child => searchPrefix child rest

/-- The walk of `Trie::insert` (lines 114–126) over an already-filtered
character list (the `if (!isalpha(ch)) continue;` at line 116 makes the loop
equivalent to walking `cleanWord` filtered to alphabetic characters).
Returns the rebuilt node together with the flag telling whether
`wordCount` was incremented (line 123: the final node was not yet terminal). -/
def insertAux : TrieNode → List Char → TrieNode × Bool
  | .mk cs e, [] => (.mk cs true, !e)
  | .mk cs e, c :: rest =>
    match findChild cs c with
    | some child =>
      let r := insertAux child rest
      (.mk (replaceChild cs c r.1) e, r.2)
    | none =>
      let r := insertAux (.mk [] false) rest
      (.mk (cs ++ [(c, r.1)]) e, r.2)

/-- `class Trie` (lines 41–147): the root node and the stored word count. -/
structure Trie where
  root : TrieNode
  wordCount : Nat

/-- The `Trie()` constructor (line 103): fresh root, count zero. -/
def Trie.empty : Trie :=
  { root := .mk [] false, wordCount := 0 }

/-- `Trie::insert` (lines 109–127): normalize, no-op on empty, walk the
alphabetic characters, mark the final node terminal, count first-time words. -/
def Trie.insert (t : Trie) (word : List Char) : Trie :=
  let cleanWord := cleanText word
  if cleanWord = [] then t
  else
    let r := insertAux t.root (cleanWord.filter isAlpha)
    { root := r.1, wordCount := t.wordCount + (if r.2 then 1 else 0) }

/-- The `sort(results.begin(), results.end())` call of line 142:
lexicographic order on strings, modelled by the lexicographic linear order
on `List Char`. -/
def sortStrings (l : List (List Char)) : List (List Char) :=
  l.insertionSort (fun a b => a ≤ b)

/-- `Trie::getSuggestions` (lines 133–144): normalize the query, locate the
prefix node (the root for an empty query), collect the subtree, sort. -/
def Trie.getSuggestions (t : Trie) (query : List Char) : List (List Char) :=
  let cleanQuery := cleanText query
  match (if cleanQuery = [] then some t.root else searchPrefix t.root cleanQuery) with
  | none => []
  | some node => sortStrings (collectSuggestions node cleanQuery)

/-- `Trie::getWordCount` (line 146). -/
def Trie.getWordCount (t : Trie) : Nat :=
  t.wordCount

/-- The index state reached from a freshly constructed `Trie` by a sequence
of `insert` calls (the only state-changing operation). -/
def mkTrie (ws : List (List Char)) : Trie :=
  ws.foldl Trie.insert Trie.empty

/-- Abstraction: the word `cs` is stored below `node` (the `searchPrefix`
walk succeeds and lands on a terminal node). -/
def containsWord (node : TrieNode) (cs : List Char) : Bool :=
  match searchPrefix node cs with
  | none => false
  | some n => n.isEndOfWord

mutual
/-- Number of nodes in the tree whose terminal flag is set. -/
def countTerminals : TrieNode → Nat
  | .mk cs e => (if e then 1 else 0) + countTerminalsChildren cs
def countTerminalsChildren : List (Char × TrieNode) → Nat
  | [] => 0
  | (_, t) :: rest => countTerminals t + countTerminalsChildren rest
end

/-- The set of words the trie is expected to store after inserting `ws`:
the alphabetic-only residue of each normalized word that survived the
empty check of `Trie::insert`. -/
def storedWord (ws : List (List Char)) (s : List Char) : Prop :=
  ∃ w ∈ ws, cleanText w ≠ [] ∧ (cleanText w).filter isAlpha = s

/-! ### Equation lemmas for the mutual definitions -/

@[simp] theorem collectSuggestions_mk (cs : List (Char × TrieNode)) (e : Bool) (pre : List Char) :
    collectSuggestions (.mk cs e) pre = (if e then [pre] else []) ++ collectChildren cs pre := by
  rw [collectSuggestions]

@[simp] theorem collectChildren_nil (pre : List Char) : collectChildren [] pre = [] := by
  rw [collectChildren]

@[simp] theorem collectChildren_cons (k : Char) (t : TrieNode) (rest : List (Char × TrieNode))
    (pre : List Char) :
    collectChildren ((k, t) :: rest) pre
      = collectSuggestions t (pre ++ [k]) ++ collectChildren rest pre := by
  rw [collectChildren]

@[simp] theorem countTerminals_mk (cs : List (Char × TrieNode)) (e : Bool) :
    countTerminals (.mk cs e) = (if e then 1 else 0) + countTerminalsChildren cs := by
  rw [countTerminals]

@[simp] theorem countTerminalsChildren_nil : countTerminalsChildren [] = 0 := by
  rw [countTerminalsChildren]

@[simp] theorem countTerminalsChildren_cons (k : Char) (t : TrieNode)
    (rest : List (Char × TrieNode)) :
    countTerminalsChildren ((k, t) :: rest) = countTerminals t + countTerminalsChildren rest := by
  rw [countTerminalsChildren]

@[simp] theorem children_mk (cs : List (Char × TrieNode)) (e : Bool) :
    (TrieNode.mk cs e).children = cs := rfl

@[simp] theorem isEndOfWord_mk (cs : List (Char × TrieNode)) (e : Bool) :
    (TrieNode.mk cs e).isEndOfWord = e := rfl

/-- Induction over the nested tree structure: to prove a property of every
node it suffices to prove it for a node assuming it for all its children. -/
theorem TrieNode.inductionOn (P : TrieNode → Prop)
    (h : ∀ cs e, (∀ p ∈ cs, P p.2) → P (.mk cs e)) : ∀ t, P t
  | .mk cs e => h cs e (fun p _hp => TrieNode.inductionOn P h p.2)
termination_by t => sizeOf t
decreasing_by
  have h1 := List.sizeOf_lt_of_mem _hp
  cases p
  simp at h1 ⊢
  omega

/-! ### Association-list lemmas for the child map -/

theorem findChild_some_mem {cs : List (Char × TrieNode)} {c : Char} {t : TrieNode}
    (h : findChild cs c = some t) : (c, t) ∈ cs := by
  induction cs with
  | nil => simp [findChild] at h
  | cons p rest ih =>
    obtain ⟨k, u⟩ := p
    by_cases hk : k = c
    · subst hk
      simp [findChild] at h
      subst h
      exact List.mem_cons_self _ _
    · simp [findChild, hk] at h
      exact List.mem_cons_of_mem _ (ih h)

theorem findChild_none_not_mem {cs : List (Char × TrieNode)} {c : Char}
    (h : findChild cs c = none) : c ∉ cs.map Prod.fst := by
  induction cs with
  | nil => simp
  | cons p rest ih =>
    obtain ⟨k, u⟩ := p
    by_cases hk : k = c
    · subst hk; simp [findChild] at h
    · simp [findChild, hk] at h
      simp [ih h]
      exact Ne.symm hk

theorem findChild_of_mem_nodup {cs : List (Char × TrieNode)} {c : Char} {t : TrieNode}
    (hnd : (cs.map Prod.fst).Nodup) (hmem : (c, t) ∈ cs) : findChild cs c = some t := by
  induction cs with
  | nil => simp at hmem
  | cons p rest ih =>
    obtain ⟨k, u⟩ := p
    simp only [List.map_cons, List.nodup_cons] at hnd
    rcases List.mem_cons.mp hmem with heq | hmem'
    · rw [Prod.mk.injEq] at heq
      simp [findChild, heq.1, heq.2]
    · have hkc : k ≠ c := by
        intro hkc
        subst hkc
        exact hnd.1 (List.mem_map.mpr ⟨(k, t), hmem', rfl⟩)
      simp [findChild, hkc]
      exact ih hnd.2 hmem'

theorem findChild_append (cs ds : List (Char × TrieNode)) (c : Char) :
    findChild (cs ++ ds) c
      = match findChild cs c with
        | some t => some t
        | none => findChild ds c := by
  induction cs with
  | nil => simp [findChild]
  | cons p rest ih =>
    obtain ⟨k, u⟩ := p
    by_cases hk : k = c <;> simp [findChild, hk, ih]

theorem findChild_replaceChild_self {cs : List (Char × TrieNode)} {c : Char} {t : TrieNode}
    (h : findChild cs c = some t) (t' : TrieNode) :
    findChild (replaceChild cs c t') c = some t' := by
  induction cs with
  | nil => simp [findChild] at h
  | cons p rest ih =>
    obtain ⟨k, u⟩ := p
    by_cases hk : k = c
    · subst hk; simp [findChild, replaceChild]
    · simp [findChild, replaceChild, hk] at h ⊢
      exact ih h

theorem findChild_replaceChild_ne (cs : List (Char × TrieNode)) {c d : Char} (t' : TrieNode)
    (hne : d ≠ c) : findChild (replaceChild cs c t') d = findChild cs d := by
  induction cs with
  | nil => simp [replaceChild]
  | cons p rest ih =>
    obtain ⟨k, u⟩ := p
    by_cases hk : k = c
    · subst hk
      simp [replaceChild, findChild, Ne.symm hne]
    · by_cases hkd : k = d
      · subst hkd
        simp [replaceChild, findChild, hk]
      · simp [replaceChild, findChild, hk, hkd, ih]

theorem replaceChild_map_fst (cs : List (Char × TrieNode)) (c : Char) (t' : TrieNode) :
    (replaceChild cs c t').map Prod.fst = cs.map Prod.fst := by
  induction cs with
  | nil => simp [replaceChild]
  | cons p rest ih =>
    obtain ⟨k, u⟩ := p
    by_cases hk : k = c <;> simp [replaceChild, hk, ih]

theorem mem_replaceChild {cs : List (Char × TrieNode)} {c : Char} {t' : TrieNode}
    {p : Char × TrieNode} (h : p ∈ replaceChild cs c t') : p.2 = t' ∨ p ∈ cs := by
  induction cs with
  | nil => simp [replaceChild] at h
  | cons q rest ih =>
    obtain ⟨k, u⟩ := q
    by_cases hk : k = c
    · subst hk
      simp [replaceChild] at h
      rcases h with h | h
      · left; rw [h]
      · right; exact List.mem_cons_of_mem _ h
    · simp [replaceChild, hk] at h
      rcases h with h | h
      · right; simp [h]
      · rcases ih h with h' | h'
        · left; exact h'
        · right; exact List.mem_cons_of_mem _ h'

theorem replaceChild_replaceChild (cs : List (Char × TrieNode)) (c : Char) (t' : TrieNode) :
    replaceChild (replaceChild cs c t') c t' = replaceChild cs c t' := by
  induction cs with
  | nil => simp [replaceChild]
  | cons p rest ih =>
    obtain ⟨k, u⟩ := p
    by_cases hk : k = c <;> simp [replaceChild, hk, ih]

theorem replaceChild_self {cs : List (Char × TrieNode)} {c : Char} {t : TrieNode}
    (h : findChild cs c = some t) : replaceChild cs c t = cs := by
  induction cs with
  | nil => rfl
  | cons p rest ih =>
    obtain ⟨k, u⟩ := p
    by_cases hk : k = c
    · subst hk
      simp [findChild] at h
      simp [replaceChild, h]
    · simp [findChild, hk] at h
      simp [replaceChild, hk, ih h]

theorem replaceChild_append_of_none {cs : List (Char × TrieNode)} {c : Char}
    (h : findChild cs c = none) (ds : List (Char × TrieNode)) (t' : TrieNode) :
    replaceChild (cs ++ ds) c t' = cs ++ replaceChild ds c t' := by
  induction cs with
  | nil => simp
  | cons p rest ih =>
    obtain ⟨k, u⟩ := p
    by_cases hk : k = c
    · subst hk; simp [findChild] at h
    · simp [findChild, hk] at h
      simp [replaceChild, hk, ih h]

/-! ### Search and abstraction lemmas -/

@[simp] theorem searchPrefix_nil (n : TrieNode) : searchPrefix n [] = some n := rfl

theorem searchPrefix_cons (n : TrieNode) (c : Char) (rest : List Char) :
    searchPrefix n (c :: rest)
      = match findChild n.children c with
        | none => none
        | some child => searchPrefix child rest := rfl

theorem searchPrefix_append (n : TrieNode) (a b : List Char) :
    searchPrefix n (a ++ b) = (searchPrefix n a).bind (fun m => searchPrefix m b) := by
  induction a generalizing n with
  | nil => simp
  | cons c rest ih =>
    rw [List.cons_append, searchPrefix_cons, searchPrefix_cons]
    cases findChild n.children c with
    | none => simp
    | some child => simp [ih]

@[simp] theorem containsWord_nil (n : TrieNode) : containsWord n [] = n.isEndOfWord := rfl

theorem containsWord_cons (n : TrieNode) (c : Char) (rest : List Char) :
    containsWord n (c :: rest)
      = match findChild n.children c with
        | none => false
        | some child => containsWord child rest := by
  unfold containsWord
  rw [searchPrefix_cons]
  cases findChild n.children c <;> simp

theorem containsWord_append (n : TrieNode) (a b : List Char) :
    containsWord n (a ++ b)
      = match searchPrefix n a with
        | none => false
        | some m => containsWord m b := by
  unfold containsWord
  rw [searchPrefix_append]
  cases searchPrefix n a <;> simp

@[simp] theorem containsWord_empty_node (q : List Char) :
    containsWord (.mk [] false) q = false := by
  cases q with
  | nil => rfl
  | cons c rest => rw [containsWord_cons]; simp [findChild]

/-! ### Insertion lemmas -/

@[simp] theorem insertAux_nil (cs : List (Char × TrieNode)) (e : Bool) :
    insertAux (.mk cs e) [] = (.mk cs true, !e) := rfl

theorem insertAux_cons_some {cs : List (Char × TrieNode)} (e : Bool) {c : Char} {child : TrieNode}
    (rest : List Char) (h : findChild cs c = some child) :
    insertAux (.mk cs e) (c :: rest)
      = (.mk (replaceChild cs c (insertAux child rest).1) e, (insertAux child rest).2) := by
  simp [insertAux, h]

theorem insertAux_cons_none {cs : List (Char × TrieNode)} (e : Bool) {c : Char}
    (rest : List Char) (h : findChild cs c = none) :
    insertAux (.mk cs e) (c :: rest)
      = (.mk (cs ++ [(c, (insertAux (.mk [] false) rest).1)]) e,
         (insertAux (.mk [] false) rest).2) := by
  simp [insertAux, h]

/-- Inserting a word stores exactly that word, on top of what was there. -/
theorem containsWord_insertAux (cs : List Char) (n : TrieNode) (q : List Char) :
    containsWord (insertAux n cs).1 q = true ↔ (q = cs ∨ containsWord n q = true) := by
  induction cs generalizing n q with
  | nil =>
    obtain ⟨cls, e⟩ := n
    cases q with
    | nil => simp
    | cons d q' =>
      rw [insertAux_nil]
      simp only [containsWord_cons, children_mk]
      cases findChild cls d <;> simp
  | cons c rest ih =>
    obtain ⟨cls, e⟩ := n
    cases hfc : findChild cls c with
    | some child =>
      rw [insertAux_cons_some e rest hfc]
      cases q with
      | nil => simp
      | cons d q' =>
        by_cases hdc : d = c
        · subst hdc
          simp only [containsWord_cons, children_mk,
            findChild_replaceChild_self hfc, hfc]
          rw [ih]
          simp
        · simp only [containsWord_cons, children_mk,
            findChild_replaceChild_ne cls _ hdc]
          have : ¬ (d :: q' = c :: rest) := by simp [hdc]
          cases findChild cls d <;> simp [this]
    | none =>
      rw [insertAux_cons_none e rest hfc]
      cases q with
      | nil => simp
      | cons d q' =>
        rw [containsWord_cons, containsWord_cons]
        simp only [children_mk, findChild_append]
        by_cases hdc : d = c
        · subst hdc
          rw [hfc]
          simp only [findChild, eq_self_iff_true, if_true]
          rw [ih]
          simp
        · have hne : ¬ (d :: q' = c :: rest) := by simp [hdc]
          have hfd1 : findChild [(c, (insertAux (.mk [] false) rest).1)] d = none := by
            have : ¬ (c = d) := fun h => hdc h.symm
            simp [findChild, this]
          cases hfd : findChild cls d with
          | none => simp [hfd1, hne]
          | some u => simp [hne]

/-- The increment flag of the insertion walk: the word was not stored yet. -/
theorem insertAux_snd (cs : List Char) (n : TrieNode) :
    (insertAux n cs).2 = !(containsWord n cs) := by
  induction cs generalizing n with
  | nil =>
    obtain ⟨cls, e⟩ := n
    simp
  | cons c rest ih =>
    obtain ⟨cls, e⟩ := n
    cases hfc : findChild cls c with
    | some child =>
      rw [insertAux_cons_some e rest hfc, containsWord_cons]
      simp [hfc, ih]
    | none =>
      rw [insertAux_cons_none e rest hfc, containsWord_cons]
      simp [hfc, ih]

/-! ### The well-formedness invariant -/

/-- Every reachable node has pairwise-distinct child keys (the map keys of the
`unordered_map` are unique) and only alphabetic edge characters (the
`isalpha` filter of `Trie::insert` is the only edge creator). -/
inductive WFNode : TrieNode → Prop where
  | mk : ∀ cs e, (cs.map Prod.fst).Nodup → (∀ p ∈ cs, isAlpha p.1 = true) →
      (∀ p ∈ cs, WFNode p.2) → WFNode (.mk cs e)

theorem WFNode.nodupKeys {cs : List (Char × TrieNode)} {e : Bool}
    (h : WFNode (.mk cs e)) : (cs.map Prod.fst).Nodup := by
  cases h; assumption

theorem WFNode.alphaKeys {cs : List (Char × TrieNode)} {e : Bool}
    (h : WFNode (.mk cs e)) : ∀ p ∈ cs, isAlpha p.1 = true := by
  cases h; assumption

theorem WFNode.child {cs : List (Char × TrieNode)} {e : Bool}
    (h : WFNode (.mk cs e)) : ∀ p ∈ cs, WFNode p.2 := by
  cases h; assumption

theorem wfNode_leaf (e : Bool) : WFNode (.mk [] e) :=
  WFNode.mk [] e (by simp) (by simp) (by simp)

theorem wfNode_insertAux (cs : List Char) (halpha : ∀ c ∈ cs, isAlpha c = true) :
    ∀ n : TrieNode, WFNode n → WFNode (insertAux n cs).1 := by
  induction cs with
  | nil =>
    intro n hwf
    obtain ⟨cls, e⟩ := n
    rw [insertAux_nil]
    exact WFNode.mk cls true hwf.nodupKeys hwf.alphaKeys hwf.child
  | cons c rest ih =>
    intro n hwf
    obtain ⟨cls, e⟩ := n
    have hc : isAlpha c = true := halpha c (List.mem_cons_self c rest)
    have hrest : ∀ c' ∈ rest, isAlpha c' = true :=
      fun c' h' => halpha c' (List.mem_cons_of_mem _ h')
    cases hfc : findChild cls c with
    | some child =>
      rw [insertAux_cons_some e rest hfc]
      apply WFNode.mk
      · rw [replaceChild_map_fst]; exact hwf.nodupKeys
      · intro p hp
        have hkey : p.1 ∈ cls.map Prod.fst := by
          rw [← replaceChild_map_fst cls c (insertAux child rest).1]
          exact List.mem_map_of_mem Prod.fst hp
        obtain ⟨q, hq, hfst⟩ := List.mem_map.mp hkey
        rw [← hfst]
        exact hwf.alphaKeys q hq
      · intro p hp
        rcases mem_replaceChild hp with h2 | h2
        · rw [h2]
          exact ih hrest child (hwf.child (c, child) (findChild_some_mem hfc))
        · exact hwf.child p h2
    | none =>
      rw [insertAux_cons_none e rest hfc]
      apply WFNode.mk
      · simp only [List.map_append, List.map_cons, List.map_nil]
        rw [List.nodup_append]
        refine ⟨hwf.nodupKeys, by simp, ?_⟩
        intro a ha hb
        simp at hb
        subst hb
        exact findChild_none_not_mem hfc ha
      · intro p hp
        rcases List.mem_append.mp hp with h2 | h2
        · exact hwf.alphaKeys p h2
        · simp at h2
          rw [h2]
          exact hc
      · intro p hp
        rcases List.mem_append.mp hp with h2 | h2
        · exact hwf.child p h2
        · simp at h2
          rw [h2]
          exact ih hrest (.mk [] false) (wfNode_leaf false)

/-- All states reachable by the three public operations are well-formed. -/
def WFTrie (t : Trie) : Prop := WFNode t.root

theorem wfTrie_insert {t : Trie} (h : WFTrie t) (w : List Char) : WFTrie (t.insert w) := by
  unfold Trie.insert WFTrie
  by_cases hc : cleanText w = []
  · simpa [hc] using h
  · simp only [hc, if_neg]
    exact wfNode_insertAux _ (fun c hcm => List.of_mem_filter hcm) _ h

theorem wfTrie_empty : WFTrie Trie.empty := wfNode_leaf false

theorem wfTrie_mkTrie (ws : List (List Char)) : WFTrie (mkTrie ws) := by
  have h : ∀ t, WFTrie t → WFTrie (ws.foldl Trie.insert t) := by
    induction ws with
    | nil => intro t ht; exact ht
    | cons w rest ih => intro t ht; exact ih _ (wfTrie_insert ht w)
  exact h _ wfTrie_empty

/-! ### The stored-word abstraction of insertion sequences -/

theorem containsWord_insert (t : Trie) (w q : List Char) :
    containsWord (t.insert w).root q = true
      ↔ ((cleanText w ≠ [] ∧ (cleanText w).filter isAlpha = q)
          ∨ containsWord t.root q = true) := by
  unfold Trie.insert
  by_cases h : cleanText w = []
  · simp [h]
  · simp only [h, if_neg, not_false_iff]
    rw [containsWord_insertAux]
    constructor
    · rintro (rfl | h2)
      · exact Or.inl ⟨h, rfl⟩
      · exact Or.inr h2
    · rintro (⟨_, rfl⟩ | h2)
      · exact Or.inl rfl
      · exact Or.inr h2

theorem containsWord_foldl (ws : List (List Char)) (t : Trie) (q : List Char) :
    containsWord (ws.foldl Trie.insert t).root q = true
      ↔ storedWord ws q ∨ containsWord t.root q = true := by
  induction ws generalizing t with
  | nil => simp [storedWord]
  | cons w rest ih =>
    rw [List.foldl_cons, ih, containsWord_insert]
    unfold storedWord
    simp only [List.mem_cons]
    constructor
    · rintro (⟨w', hw', h1, h2⟩ | ⟨h1, h2⟩ | h2)
      · exact Or.inl ⟨w', Or.inr hw', h1, h2⟩
      · exact Or.inl ⟨w, Or.inl rfl, h1, h2⟩
      · exact Or.inr h2
    · rintro (⟨w', (rfl | hw'), h1, h2⟩ | h2)
      · exact Or.inr (Or.inl ⟨h1, h2⟩)
      · exact Or.inl ⟨w', hw', h1, h2⟩
      · exact Or.inr (Or.inr h2)

theorem containsWord_mkTrie (ws : List (List Char)) (q : List Char) :
    containsWord (mkTrie ws).root q = true ↔ storedWord ws q := by
  have h := containsWord_foldl ws Trie.empty q
  unfold mkTrie
  rw [h]
  simp [Trie.empty]

/-! ### Collection lemmas -/

theorem mem_collectChildren {cs : List (Char × TrieNode)} {pre s : List Char} :
    s ∈ collectChildren cs pre ↔ ∃ p ∈ cs, s ∈ collectSuggestions p.2 (pre ++ [p.1]) := by
  induction cs with
  | nil => simp
  | cons p rest ih =>
    obtain ⟨k, t⟩ := p
    rw [collectChildren_cons, List.mem_append, ih]
    constructor
    · rintro (h | ⟨q, hq, hmem⟩)
      · exact ⟨(k, t), List.mem_cons_self _ _, h⟩
      · exact ⟨q, List.mem_cons_of_mem _ hq, hmem⟩
    · rintro ⟨q, hq, hmem⟩
      rcases List.mem_cons.mp hq with rfl | hq'
      · exact Or.inl hmem
      · exact Or.inr ⟨q, hq', hmem⟩

/-- What `collectSuggestions` emits below a well-formed node: exactly the
prefix followed by each stored word of the subtree. -/
theorem mem_collectSuggestions : ∀ n : TrieNode, WFNode n → ∀ pre s : List Char,
    (s ∈ collectSuggestions n pre ↔ ∃ q, s = pre ++ q ∧ containsWord n q = true) := by
  refine TrieNode.inductionOn _ ?_
  intro cs e ih hwf pre s
  rw [collectSuggestions_mk]
  constructor
  · intro hs
    rcases List.mem_append.mp hs with hs | hs
    · by_cases he : e = true
      · rw [he] at hs
        simp at hs
        subst hs
        exact ⟨[], by simp, by simp [he]⟩
      · simp [he] at hs
    · rcases mem_collectChildren.mp hs with ⟨p, hp, hmem⟩
      obtain ⟨k, t⟩ := p
      rcases (ih (k, t) hp (hwf.child (k, t) hp) (pre ++ [k]) s).mp hmem with ⟨q', rfl, hcw⟩
      refine ⟨k :: q', by simp, ?_⟩
      rw [containsWord_cons]
      simp only [children_mk]
      rw [findChild_of_mem_nodup hwf.nodupKeys hp]
      exact hcw
  · rintro ⟨q, rfl, hcw⟩
    cases q with
    | nil =>
      rw [containsWord_nil, isEndOfWord_mk] at hcw
      apply List.mem_append_left
      simp [hcw]
    | cons k q' =>
      rw [containsWord_cons] at hcw
      simp only [children_mk] at hcw
      cases hfk : findChild cs k with
      | none => rw [hfk] at hcw; simp at hcw
      | some child =>
        rw [hfk] at hcw
        have hp := findChild_some_mem hfk
        apply List.mem_append_right
        apply mem_collectChildren.mpr
        exact ⟨(k, child), hp,
          (ih (k, child) hp (hwf.child (k, child) hp) (pre ++ [k]) _).mpr
            ⟨q', by simp, hcw⟩⟩

/-- Every collected word extends the accumulated path. -/
theorem isPre_of_mem_collect : ∀ n : TrieNode, ∀ pre s : List Char,
    s ∈ collectSuggestions n pre → pre <+: s := by
  refine TrieNode.inductionOn _ ?_
  intro cs e ih pre s hs
  rw [collectSuggestions_mk] at hs
  rcases List.mem_append.mp hs with hs | hs
  · by_cases he : e = true
    · rw [he] at hs
      simp at hs
      subst hs
      exact List.prefix_refl _
    · simp [he] at hs
  · rcases mem_collectChildren.mp hs with ⟨p, hp, hmem⟩
    exact (List.prefix_append pre [p.1]).trans (ih p hp (pre ++ [p.1]) s hmem)

theorem isPre_snoc_inj {pre s : List Char} {a b : Char}
    (h1 : (pre ++ [a]) <+: s) (h2 : (pre ++ [b]) <+: s) : a = b := by
  have hlen : (pre ++ [a]).length = (pre ++ [b]).length := by simp
  have h3 := List.prefix_of_prefix_length_le h1 h2 (le_of_eq hlen)
  have heq := List.IsPrefix.eq_of_length h3 hlen
  have := List.append_cancel_left heq
  simpa using this

theorem nodup_collectChildren (pre : List Char) (cs : List (Char × TrieNode))
    (hnd : (cs.map Prod.fst).Nodup)
    (hsub : ∀ p ∈ cs, (collectSuggestions p.2 (pre ++ [p.1])).Nodup) :
    (collectChildren cs pre).Nodup ∧
      ∀ s ∈ collectChildren cs pre, ∃ p ∈ cs, (pre ++ [p.1]) <+: s := by
  induction cs with
  | nil => simp
  | cons p rest ih =>
    obtain ⟨k, t⟩ := p
    simp only [List.map_cons, List.nodup_cons] at hnd
    obtain ⟨hknot, hndrest⟩ := hnd
    have ihr := ih hndrest (fun q hq => hsub q (List.mem_cons_of_mem _ hq))
    rw [collectChildren_cons]
    constructor
    · rw [List.nodup_append]
      refine ⟨hsub (k, t) (List.mem_cons_self _ _), ihr.1, ?_⟩
      intro s hs1 hs2
      have hpre1 : (pre ++ [k]) <+: s := isPre_of_mem_collect t (pre ++ [k]) s hs1
      rcases ihr.2 s hs2 with ⟨q, hq, hpre2⟩
      have hkq : k = q.1 := isPre_snoc_inj hpre1 hpre2
      exact hknot (hkq ▸ List.mem_map_of_mem Prod.fst hq)
    · intro s hs
      rcases List.mem_append.mp hs with hs | hs
      · exact ⟨(k, t), List.mem_cons_self _ _, isPre_of_mem_collect t _ s hs⟩
      · rcases ihr.2 s hs with ⟨q, hq, hpre⟩
        exact ⟨q, List.mem_cons_of_mem _ hq, hpre⟩

/-- Below a well-formed node, no word is collected twice: the tree has one
path per word. -/
theorem nodup_collectSuggestions : ∀ n : TrieNode, WFNode n → ∀ pre : List Char,
    (collectSuggestions n pre).Nodup := by
  refine TrieNode.inductionOn _ ?_
  intro cs e ih hwf pre
  have hcc := nodup_collectChildren pre cs hwf.nodupKeys
    (fun p hp => ih p hp (hwf.child p hp) (pre ++ [p.1]))
  rw [collectSuggestions_mk, List.nodup_append]
  refine ⟨by cases e <;> simp, hcc.1, ?_⟩
  intro s hs1 hs2
  by_cases he : e = true
  · rw [he] at hs1
    simp at hs1
    subst hs1
    rcases hcc.2 s hs2 with ⟨p, hp, hpre⟩
    have := hpre.length_le
    simp at this
  · simp [he] at hs1

theorem wfNode_searchPrefix : ∀ (a : List Char) (n m : TrieNode), WFNode n →
    searchPrefix n a = some m → WFNode m := by
  intro a
  induction a with
  | nil =>
    intro n m hwf h
    simp at h
    subst h
    exact hwf
  | cons c rest ih =>
    intro n m hwf h
    obtain ⟨cs, e⟩ := n
    rw [searchPrefix_cons] at h
    simp only [children_mk] at h
    cases hfc : findChild cs c with
    | none => rw [hfc] at h; simp at h
    | some child =>
      rw [hfc] at h
      exact ih child m (hwf.child _ (findChild_some_mem hfc)) h

/-! ### Sorting lemmas -/

theorem sortStrings_perm (l : List (List Char)) : List.Perm (sortStrings l) l :=
  List.perm_insertionSort _ l

theorem sortStrings_sorted (l : List (List Char)) :
    (sortStrings l).Sorted (fun a b => a ≤ b) :=
  List.sorted_insertionSort _ l

theorem mem_sortStrings {l : List (List Char)} {s : List Char} :
    s ∈ sortStrings l ↔ s ∈ l :=
  (sortStrings_perm l).mem_iff

theorem sortStrings_nodup {l : List (List Char)} (h : l.Nodup) : (sortStrings l).Nodup :=
  ((sortStrings_perm l).nodup_iff).mpr h

theorem sortStrings_eq_of_perm {l₁ l₂ : List (List Char)} (h : List.Perm l₁ l₂) :
    sortStrings l₁ = sortStrings l₂ :=
  List.eq_of_perm_of_sorted ((sortStrings_perm l₁).trans (h.trans (sortStrings_perm l₂).symm))
    (sortStrings_sorted l₁) (sortStrings_sorted l₂)

/-! ### The master description of `getSuggestions` -/

/-- A word is suggested for a query exactly when it extends the normalized
query and is stored in the trie. -/
theorem mem_getSuggestions {t : Trie} (hwf : WFTrie t) (p s : List Char) :
    s ∈ t.getSuggestions p ↔ (cleanText p <+: s ∧ containsWord t.root s = true) := by
  show s ∈ (match (if cleanText p = [] then some t.root else searchPrefix t.root (cleanText p))
      with
      | none => []
      | some node => sortStrings (collectSuggestions node (cleanText p))) ↔ _
  by_cases hp : cleanText p = []
  · rw [if_pos hp, hp]
    rw [mem_sortStrings, mem_collectSuggestions t.root hwf [] s]
    constructor
    · rintro ⟨q, rfl, hcw⟩
      simpa using hcw
    · rintro ⟨_, hcw⟩
      exact ⟨s, by simp, hcw⟩
  · rw [if_neg hp]
    cases hsp : searchPrefix t.root (cleanText p) with
    | none =>
      simp only [List.not_mem_nil, false_iff]
      rintro ⟨⟨u, rfl⟩, hcw⟩
      rw [containsWord_append, hsp] at hcw
      simp at hcw
    | some m =>
      rw [mem_sortStrings,
        mem_collectSuggestions m (wfNode_searchPrefix _ _ _ hwf hsp) (cleanText p) s]
      constructor
      · rintro ⟨q, rfl, hcw⟩
        refine ⟨List.prefix_append _ _, ?_⟩
        rw [containsWord_append, hsp]
        exact hcw
      · rintro ⟨⟨u, rfl⟩, hcw⟩
        rw [containsWord_append, hsp] at hcw
        exact ⟨u, rfl, hcw⟩

/-! ### Unfolding lemmas for the public operations -/

theorem Trie.insert_def (t : Trie) (w : List Char) :
    t.insert w
      = if cleanText w = [] then t
        else { root := (insertAux t.root ((cleanText w).filter isAlpha)).1,
               wordCount := t.wordCount
                 + (if (insertAux t.root ((cleanText w).filter isAlpha)).2 then 1 else 0) } :=
  rfl

theorem Trie.getSuggestions_def (t : Trie) (q : List Char) :
    t.getSuggestions q
      = match (if cleanText q = [] then some t.root else searchPrefix t.root (cleanText q)) with
        | none => []
        | some node => sortStrings (collectSuggestions node (cleanText q)) :=
  rfl

/-! ### Word counting: `wordCount` against the number of terminal nodes -/

theorem countTerminalsChildren_append (cs ds : List (Char × TrieNode)) :
    countTerminalsChildren (cs ++ ds)
      = countTerminalsChildren cs + countTerminalsChildren ds := by
  induction cs with
  | nil => simp
  | cons p rest ih =>
    obtain ⟨k, t⟩ := p
    simp only [List.cons_append, countTerminalsChildren_cons, ih]
    omega

theorem countTerminalsChildren_replaceChild {cs : List (Char × TrieNode)} {c : Char}
    {child : TrieNode} (h : findChild cs c = some child) (t' : TrieNode) :
    countTerminalsChildren (replaceChild cs c t') + countTerminals child
      = countTerminalsChildren cs + countTerminals t' := by
  induction cs with
  | nil => simp [findChild] at h
  | cons p rest ih =>
    obtain ⟨k, u⟩ := p
    by_cases hk : k = c
    · subst hk
      simp [findChild] at h
      subst h
      simp [replaceChild]
      omega
    · simp [findChild, hk] at h
      simp only [replaceChild, if_neg hk, countTerminalsChildren_cons]
      have := ih h
      omega

/-- The insertion walk adds exactly the increment flag to the number of
terminal nodes. -/
theorem countTerminals_insertAux (cs : List Char) (n : TrieNode) :
    countTerminals (insertAux n cs).1
      = countTerminals n + (if (insertAux n cs).2 then 1 else 0) := by
  induction cs generalizing n with
  | nil =>
    obtain ⟨cls, e⟩ := n
    rw [insertAux_nil]
    cases e <;> simp [Nat.add_comm]
  | cons c rest ih =>
    obtain ⟨cls, e⟩ := n
    cases hfc : findChild cls c with
    | some child =>
      rw [insertAux_cons_some e rest hfc]
      simp only [countTerminals_mk]
      have h1 := countTerminalsChildren_replaceChild hfc (insertAux child rest).1
      have h2 := ih child
      cases e <;> cases hflag : (insertAux child rest).2 <;>
        rw [hflag] at h2 <;> simp at h1 h2 ⊢ <;> omega
    | none =>
      rw [insertAux_cons_none e rest hfc]
      simp only [countTerminals_mk, countTerminalsChildren_append,
        countTerminalsChildren_cons, countTerminalsChildren_nil]
      have h2 := ih (.mk [] false)
      cases e <;> cases hflag : (insertAux (TrieNode.mk [] false) rest).2 <;>
        rw [hflag] at h2 <;> simp at h2 ⊢ <;> omega

theorem wordCount_insert {t : Trie} (h : t.wordCount = countTerminals t.root)
    (w : List Char) : (t.insert w).wordCount = countTerminals (t.insert w).root := by
  rw [Trie.insert_def]
  by_cases hc : cleanText w = []
  · rw [if_pos hc]
    exact h
  · rw [if_neg hc]
    show t.wordCount + _ = countTerminals (insertAux t.root _).1
    rw [countTerminals_insertAux, h]

theorem wordCount_eq_countTerminals (ws : List (List Char)) :
    (mkTrie ws).wordCount = countTerminals (mkTrie ws).root := by
  have h : ∀ t : Trie, t.wordCount = countTerminals t.root →
      (ws.foldl Trie.insert t).wordCount = countTerminals (ws.foldl Trie.insert t).root := by
    induction ws with
    | nil => intro t ht; exact ht
    | cons w rest ih => intro t ht; exact ih _ (wordCount_insert ht w)
  exact h Trie.empty (by simp [Trie.empty])

/-! ### Idempotence of insertion -/

theorem insertAux_idem (cs : List Char) (n : TrieNode) :
    insertAux (insertAux n cs).1 cs = ((insertAux n cs).1, false) := by
  induction cs generalizing n with
  | nil =>
    obtain ⟨cls, e⟩ := n
    simp
  | cons c rest ih =>
    obtain ⟨cls, e⟩ := n
    cases hfc : findChild cls c with
    | some child =>
      rw [insertAux_cons_some e rest hfc]
      have hfind := findChild_replaceChild_self hfc (insertAux child rest).1
      rw [insertAux_cons_some e rest hfind, ih child]
      simp [replaceChild_replaceChild]
    | none =>
      rw [insertAux_cons_none e rest hfc]
      have hfind : findChild (cls ++ [(c, (insertAux (TrieNode.mk [] false) rest).1)]) c
          = some (insertAux (TrieNode.mk [] false) rest).1 := by
        rw [findChild_append, hfc]
        simp [findChild]
      rw [insertAux_cons_some e rest hfind, ih (TrieNode.mk [] false)]
      simp [replaceChild_self hfind]

/-- Re-inserting an already-inserted word is a complete no-op on the state. -/
theorem insert_insert (t : Trie) (w : List Char) :
    (t.insert w).insert w = t.insert w := by
  by_cases hc : cleanText w = []
  · rw [Trie.insert_def ((t.insert w)) w, if_pos hc]
  · rw [Trie.insert_def t w, if_neg hc, Trie.insert_def, if_neg hc]
    show Trie.mk (insertAux (insertAux t.root _).1 _).1 _ = _
    rw [insertAux_idem]
    simp

/-- `Trie::insert` looks only at the normalized text of its argument. -/
theorem insert_congr_cleanText {w w2 : List Char} (h : cleanText w2 = cleanText w)
    (t : Trie) : t.insert w2 = t.insert w := by
  rw [Trie.insert_def, Trie.insert_def, h]

theorem iterate_insert_eq (w : List Char) :
    ∀ n : Nat, 1 ≤ n → ∀ t : Trie, (fun s : Trie => s.insert w)^[n] t = t.insert w := by
  intro n
  induction n with
  | zero => intro h; omega
  | succ m ih =>
    intro _ t
    rw [Function.iterate_succ_apply]
    rcases Nat.eq_zero_or_pos m with h0 | hpos
    · subst h0
      simp
    · rw [ih hpos (t.insert w), insert_insert]

/-! ### Stored words are alphabetic -/

theorem containsWord_all_alpha : ∀ (s : List Char) (n : TrieNode), WFNode n →
    containsWord n s = true → ∀ c ∈ s, isAlpha c = true := by
  intro s
  induction s with
  | nil =>
    intro n _ _ c hc
    simp at hc
  | cons d rest ih =>
    intro n hwf hcw c hc
    obtain ⟨cls, e⟩ := n
    rw [containsWord_cons] at hcw
    simp only [children_mk] at hcw
    cases hfd : findChild cls d with
    | none => rw [hfd] at hcw; simp at hcw
    | some child =>
      rw [hfd] at hcw
      have hmem := findChild_some_mem hfd
      rcases List.mem_cons.mp hc with rfl | hc'
      · exact hwf.alphaKeys (c, child) hmem
      · exact ih child (hwf.child _ hmem) hcw c hc'

/-! ### Invariance under the child-map iteration order

The C++ `unordered_map` iterates its entries in an unspecified order; the
association-list embedding fixes one order.  Two tries hold the same map
content when their canonical forms — every child list recursively sorted by
key — coincide, and equivalent well-formed tries answer every query
identically. -/

/-- Sort a child list by key (a canonical iteration order). -/
def sortChildren (cs : List (Char × TrieNode)) : List (Char × TrieNode) :=
  cs.insertionSort (fun p q => p.1 ≤ q.1)

mutual
/-- Canonical form of a node: every child list recursively sorted by key. -/
def canon : TrieNode → TrieNode
  | .mk cs e => .mk (sortChildren (canonChildren cs)) e
def canonChildren : List (Char × TrieNode) → List (Char × TrieNode)
  | [] => []
  | (k, t) :: rest => (k, canon t) :: canonChildren rest
end

/-- Two nodes hold the same trie content up to the (unspecified) iteration
order of each node's child map. -/
def NodeEquiv (n n' : TrieNode) : Prop :=
  canon n = canon n'

@[simp] theorem canon_mk (cs : List (Char × TrieNode)) (e : Bool) :
    canon (.mk cs e) = .mk (sortChildren (canonChildren cs)) e := by
  rw [canon]

@[simp] theorem canonChildren_nil : canonChildren [] = [] := by
  rw [canonChildren]

@[simp] theorem canonChildren_cons (k : Char) (t : TrieNode)
    (rest : List (Char × TrieNode)) :
    canonChildren ((k, t) :: rest) = (k, canon t) :: canonChildren rest := by
  rw [canonChildren]

theorem sortChildren_perm (cs : List (Char × TrieNode)) :
    List.Perm (sortChildren cs) cs :=
  List.perm_insertionSort _ cs

theorem canonChildren_map_fst (cs : List (Char × TrieNode)) :
    (canonChildren cs).map Prod.fst = cs.map Prod.fst := by
  induction cs with
  | nil => simp
  | cons p rest ih =>
    obtain ⟨k, t⟩ := p
    simp [ih]

/-- With pairwise-distinct keys, entry lookup is insensitive to the order of
the entries. -/
theorem findChild_perm : ∀ {cs cs' : List (Char × TrieNode)}, List.Perm cs cs' →
    (cs.map Prod.fst).Nodup → ∀ c : Char, findChild cs c = findChild cs' c := by
  intro cs cs' hperm
  induction hperm with
  | nil => intro _ c; rfl
  | cons p hp ih =>
    intro hnd c
    obtain ⟨k, t⟩ := p
    simp only [List.map_cons, List.nodup_cons] at hnd
    by_cases hk : k = c <;> simp [findChild, hk, ih hnd.2]
  | swap p q l =>
    intro hnd c
    obtain ⟨k1, t1⟩ := p
    obtain ⟨k2, t2⟩ := q
    simp only [List.map_cons, List.nodup_cons, List.mem_cons] at hnd
    have hne : ¬ (k2 = k1) := fun h => hnd.1 (Or.inl h)
    by_cases h1 : k1 = c
    · subst h1
      have h2 : ¬ (k2 = k1) := hne
      simp [findChild, h2]
    · by_cases h2 : k2 = c <;> simp [findChild, h1, h2]
  | trans h1 h2 ih1 ih2 =>
    intro hnd c
    rw [ih1 hnd c, ih2 (((h1.map Prod.fst).nodup_iff).mp hnd) c]

theorem findChild_canonChildren (cs : List (Char × TrieNode)) (c : Char) :
    findChild (canonChildren cs) c = (findChild cs c).map canon := by
  induction cs with
  | nil => simp [findChild]
  | cons p rest ih =>
    obtain ⟨k, t⟩ := p
    by_cases hk : k = c <;> simp [findChild, hk, ih]

theorem findChild_canon {cs : List (Char × TrieNode)} (hnd : (cs.map Prod.fst).Nodup)
    (c : Char) :
    findChild (sortChildren (canonChildren cs)) c = (findChild cs c).map canon := by
  rw [← findChild_canonChildren]
  have hnd' : ((canonChildren cs).map Prod.fst).Nodup := by
    rw [canonChildren_map_fst]
    exact hnd
  exact (findChild_perm (sortChildren_perm (canonChildren cs)).symm hnd' c).symm

theorem searchPrefix_canon : ∀ (a : List Char) (n : TrieNode), WFNode n →
    searchPrefix (canon n) a = (searchPrefix n a).map canon := by
  intro a
  induction a with
  | nil =>
    intro n _
    simp
  | cons c rest ih =>
    intro n hwf
    obtain ⟨cs, e⟩ := n
    rw [canon_mk, searchPrefix_cons, searchPrefix_cons]
    simp only [children_mk]
    rw [findChild_canon hwf.nodupKeys]
    cases hfc : findChild cs c with
    | none => simp
    | some child =>
      simp only [Option.map_some]
      exact ih child (hwf.child _ (findChild_some_mem hfc))

theorem collectChildren_perm_of_perm : ∀ {cs cs' : List (Char × TrieNode)},
    List.Perm cs cs' → ∀ pre : List Char,
    List.Perm (collectChildren cs pre) (collectChildren cs' pre) := by
  intro cs cs' hperm
  induction hperm with
  | nil => intro pre; exact List.Perm.refl _
  | cons p hp ih =>
    intro pre
    obtain ⟨k, t⟩ := p
    rw [collectChildren_cons, collectChildren_cons]
    exact List.Perm.append_left _ (ih pre)
  | swap p q l =>
    intro pre
    obtain ⟨k1, t1⟩ := p
    obtain ⟨k2, t2⟩ := q
    rw [collectChildren_cons, collectChildren_cons, collectChildren_cons,
      collectChildren_cons]
    rw [← List.append_assoc, ← List.append_assoc]
    exact List.Perm.append_right _ List.perm_append_comm
  | trans h1 h2 ih1 ih2 =>
    intro pre
    exact (ih1 pre).trans (ih2 pre)

/-- Canonicalization permutes, but never changes, the collected words. -/
theorem collect_canon_perm : ∀ n : TrieNode, ∀ pre : List Char,
    List.Perm (collectSuggestions (canon n) pre) (collectSuggestions n pre) := by
  refine TrieNode.inductionOn _ ?_
  intro cs e ih pre
  rw [canon_mk, collectSuggestions_mk, collectSuggestions_mk]
  refine List.Perm.append_left _ ?_
  refine (collectChildren_perm_of_perm (sortChildren_perm (canonChildren cs)) pre).trans ?_
  clear e
  induction cs with
  | nil => exact List.Perm.refl _
  | cons p rest ihr =>
    obtain ⟨k, t⟩ := p
    rw [canonChildren_cons, collectChildren_cons, collectChildren_cons]
    exact List.Perm.append (ih (k, t) (List.mem_cons_self _ _) (pre ++ [k]))
      (ihr (fun q hq pre2 => ih q (List.mem_cons_of_mem _ hq) pre2))

/-- Equivalent well-formed tries answer every query identically: the
collection phase produces permutations of one another and the final sort
cancels the difference. -/
theorem getSuggestions_congr {t₁ t₂ : Trie} (hwf₁ : WFTrie t₁) (hwf₂ : WFTrie t₂)
    (h : NodeEquiv t₁.root t₂.root) (q : List Char) :
    t₁.getSuggestions q = t₂.getSuggestions q := by
  rw [Trie.getSuggestions_def, Trie.getSuggestions_def]
  by_cases hq : cleanText q = []
  · rw [if_pos hq, if_pos hq]
    refine sortStrings_eq_of_perm ?_
    refine (collect_canon_perm t₁.root _).symm.trans ?_
    rw [h]
    exact collect_canon_perm t₂.root _
  · rw [if_neg hq, if_neg hq]
    have hs : (searchPrefix t₁.root (cleanText q)).map canon
        = (searchPrefix t₂.root (cleanText q)).map canon := by
      rw [← searchPrefix_canon _ _ hwf₁, ← searchPrefix_canon _ _ hwf₂, h]
    cases h1 : searchPrefix t₁.root (cleanText q) with
    | none =>
      cases h2 : searchPrefix t₂.root (cleanText q) with
      | none => rfl
      | some m₂ => rw [h1, h2] at hs; cases hs
    | some m₁ =>
      cases h2 : searchPrefix t₂.root (cleanText q) with
      | none => rw [h1, h2] at hs; cases hs
      | some m₂ =>
        rw [h1, h2] at hs
        simp only [Option.map_some', Option.some.injEq] at hs
        refine sortStrings_eq_of_perm ?_
        refine (collect_canon_perm m₁ _).symm.trans ?_
        rw [hs]
        exact collect_canon_perm m₂ _

/-! ### Concrete words used by witnesses and counterexamples -/

def wApple : List Char := ['a', 'p', 'p', 'l', 'e']

def wApp : List Char := ['a', 'p', 'p']

def wApply : List Char := ['a', 'p', 'p', 'l', 'y']

def wApricot : List Char := ['a', 'p', 'r', 'i', 'c', 'o', 't']

def wBanana : List Char := ['b', 'a', 'n', 'a', 'n', 'a']

def wCat : List Char := ['c', 'a', 't']

def demoWords : List (List Char) := [wApple, wApp, wApply, wApricot, wBanana]

/-- A two-child root in one child-map iteration order. -/
def nodeA : TrieNode :=
  .mk [('a', .mk [] true), ('b', .mk [] true)] false

/-- The same two-child root in the opposite iteration order. -/
def nodeB : TrieNode :=
  .mk [('b', .mk [] true), ('a', .mk [] true)] false

theorem wf_nodeA : WFNode nodeA := by
  refine WFNode.mk _ _ (by decide) (by decide) ?_
  intro p hp
  rcases List.mem_cons.mp hp with rfl | hp'
  · exact wfNode_leaf true
  · rcases List.mem_cons.mp hp' with rfl | hp''
    · exact wfNode_leaf true
    · simp at hp''

theorem wf_nodeB : WFNode nodeB := by
  refine WFNode.mk _ _ (by decide) (by decide) ?_
  intro p hp
  rcases List.mem_cons.mp hp with rfl | hp'
  · exact wfNode_leaf true
  · rcases List.mem_cons.mp hp' with rfl | hp''
    · exact wfNode_leaf true
    · simp at hp''

/-! ### The claims -/

/-- Claim C1, counterexample: inserting `"1"` — normalized text non-empty
but with no alphabetic character — marks the root terminal and changes
`count()`, contrary to the claim. -/
theorem c1_counterexample :
    (Trie.empty.insert ['1']).root.isEndOfWord = true
      ∧ (Trie.empty.insert ['1']).getWordCount ≠ Trie.empty.getWordCount := by
  decide

/-- Claim C1 (amended): for every sequence of inserts in which each word's
normalized text is either empty or contains at least one alphabetic
character, the root node is never marked terminal.  (The original claim
fails because an insert whose normalized text is non-empty but entirely
non-alphabetic consumes no edge, leaving the walk at the root, which then
gets the terminal mark and increments `count()`.) -/
theorem c1_root_never_terminal (ws : List (List Char))
    (h : ∀ w ∈ ws, cleanText w = [] ∨ (cleanText w).filter isAlpha ≠ []) :
    (mkTrie ws).root.isEndOfWord = false := by
  cases hval : (mkTrie ws).root.isEndOfWord
  · rfl
  · exfalso
    have hcw : containsWord (mkTrie ws).root [] = true := by
      rw [containsWord_nil]
      exact hval
    rcases (containsWord_mkTrie ws []).mp hcw with ⟨w, hmem, hne, hfil⟩
    rcases h w hmem with h1 | h1
    · exact hne h1
    · exact h1 hfil

/-- Claim C1 witness: a purely alphabetic insertion sequence leaves the root
non-terminal. -/
theorem c1_witness : (mkTrie [wApple]).root.isEndOfWord = false :=
  c1_root_never_terminal [wApple] (by decide)

/-- Claim C2, counterexample: after inserting `"a1"`, its normalized form
`"a1"` does not appear in `suggest("")` (the trie stored `"a"` instead). -/
theorem c2_counterexample :
    ¬ cleanText ['a', '1'] ∈ (mkTrie [['a', '1']]).getSuggestions [] := by
  decide

/-- Claim C2 (amended): `suggest("")` returns exactly the distinct
alpha-filtered normalized forms — trim, lowercase, then drop non-alphabetic
characters — of the inserted words whose normalized text was non-empty.
(The original claim, stated with the unfiltered normalized forms, fails on
words containing non-alphabetic characters.) -/
theorem c2_suggest_empty (ws : List (List Char)) (s : List Char) :
    s ∈ (mkTrie ws).getSuggestions []
      ↔ ∃ w ∈ ws, cleanText w ≠ [] ∧ (cleanText w).filter isAlpha = s := by
  rw [mem_getSuggestions (wfTrie_mkTrie ws) [] s, containsWord_mkTrie]
  unfold storedWord
  constructor
  · rintro ⟨_, h⟩
    exact h
  · intro h
    refine ⟨?_, h⟩
    show cleanText [] <+: s
    exact List.nil_prefix

/-- Claim C3, counterexample: `"a1"` was inserted, yet `suggest("a1")` does
not contain its normalized form (the query keeps the `1` that insertion
dropped, so the walk fails). -/
theorem c3_counterexample :
    ¬ cleanText ['a', '1'] ∈ (mkTrie [['a', '1']]).getSuggestions ['a', '1'] := by
  decide

/-- Claim C3 (amended): for every inserted word whose normalized form is
non-empty and consists only of alphabetic characters, querying the word
itself returns its normalized form among the suggestions. -/
theorem c3_suggest_self (ws : List (List Char)) (w : List Char) (hmem : w ∈ ws)
    (hne : cleanText w ≠ []) (halpha : ∀ c ∈ cleanText w, isAlpha c = true) :
    cleanText w ∈ (mkTrie ws).getSuggestions w := by
  rw [mem_getSuggestions (wfTrie_mkTrie ws) w (cleanText w), containsWord_mkTrie]
  exact ⟨List.prefix_refl _, w, hmem, hne, List.filter_eq_self.mpr halpha⟩

/-- Claim C3 witness: `"apple"` is suggested when queried with itself. -/
theorem c3_witness : cleanText wApple ∈ (mkTrie demoWords).getSuggestions wApple :=
  c3_suggest_self demoWords wApple (by decide) (by decide) (by decide)

/-- Claim C4: the concrete five-word scenario of the specification. -/
theorem c4_concrete_scenario :
    (mkTrie demoWords).getWordCount = 5
      ∧ (mkTrie demoWords).getSuggestions ['a', 'p'] = [wApp, wApple, wApply, wApricot]
      ∧ (mkTrie demoWords).getSuggestions ['b'] = [wBanana]
      ∧ (mkTrie demoWords).getSuggestions ['z'] = [] := by
  decide

/-- Claim C5: from any starting state, inserting the same word `n ≥ 1` times
leaves `count()` at its value after the first insertion, and re-inserting any
word with the same normalized text as an already-inserted word leaves
`count()` unchanged. -/
theorem c5_idempotent_count (t : Trie) (w w2 : List Char) (n : Nat) (hn : 1 ≤ n)
    (hw2 : cleanText w2 = cleanText w) :
    ((fun s : Trie => s.insert w)^[n] t).getWordCount = (t.insert w).getWordCount
      ∧ ((t.insert w).insert w2).getWordCount = (t.insert w).getWordCount := by
  constructor
  · rw [iterate_insert_eq w n hn t]
  · rw [insert_congr_cleanText hw2, insert_insert]

/-- Claim C5 witness: inserting `"cat"` three times gives the count of one
insertion. -/
theorem c5_witness :
    ((fun s : Trie => s.insert wCat)^[3] Trie.empty).getWordCount
        = (Trie.empty.insert wCat).getWordCount
      ∧ ((Trie.empty.insert wCat).insert wCat).getWordCount
        = (Trie.empty.insert wCat).getWordCount :=
  c5_idempotent_count Trie.empty wCat wCat 3 (by decide) rfl

/-- Claim C6: in every reachable state, `suggest` returns a list sorted in
non-decreasing lexicographic order with no duplicates. -/
theorem c6_sorted_nodup (ws : List (List Char)) (q : List Char) :
    ((mkTrie ws).getSuggestions q).Sorted (fun a b => a ≤ b)
      ∧ ((mkTrie ws).getSuggestions q).Nodup := by
  rw [Trie.getSuggestions_def]
  by_cases hq : cleanText q = []
  · rw [if_pos hq]
    exact ⟨sortStrings_sorted _,
      sortStrings_nodup (nodup_collectSuggestions _ (wfTrie_mkTrie ws) _)⟩
  · rw [if_neg hq]
    cases hsp : searchPrefix (mkTrie ws).root (cleanText q) with
    | none => exact ⟨List.sorted_nil, List.nodup_nil⟩
    | some m =>
      exact ⟨sortStrings_sorted _, sortStrings_nodup
        (nodup_collectSuggestions m
          (wfNode_searchPrefix _ _ _ (wfTrie_mkTrie ws) hsp) _)⟩

/-- Claim C7: in every state reachable by the public operations (`insert` is
the only state changer; `suggest` and `count` are pure), the stored
`wordCount` equals the number of terminal nodes of the tree. -/
theorem c7_wordCount_invariant (ws : List (List Char)) :
    (mkTrie ws).getWordCount = countTerminals (mkTrie ws).root :=
  wordCount_eq_countTerminals ws

/-- Claim C8: a query whose normalized form contains a non-alphabetic
character returns no suggestions in any reachable state, since every edge of
the tree carries an alphabetic character. -/
theorem c8_nonalpha_query_empty (ws : List (List Char)) (q : List Char)
    (h : ∃ c ∈ cleanText q, isAlpha c = false) :
    (mkTrie ws).getSuggestions q = [] := by
  rw [List.eq_nil_iff_forall_not_mem]
  intro s hs
  rcases h with ⟨c, hc, hcf⟩
  rw [mem_getSuggestions (wfTrie_mkTrie ws) q s] at hs
  obtain ⟨hpre, hcw⟩ := hs
  have halpha := containsWord_all_alpha s _ (wfTrie_mkTrie ws) hcw
  have hcs : c ∈ s := hpre.subset hc
  rw [halpha c hcs] at hcf
  exact Bool.noConfusion hcf

/-- Claim C8 witness: the query `"a1"` returns nothing on the demo trie. -/
theorem c8_witness : (mkTrie demoWords).getSuggestions ['a', '1'] = [] :=
  c8_nonalpha_query_empty demoWords ['a', '1'] (by decide)

/-- Claim C9: inserting text whose normalized form is empty is a silent
no-op, leaving the whole state — hence `count()` and every query — intact. -/
theorem c9_empty_insert_noop (t : Trie) (w : List Char) (h : cleanText w = []) :
    t.insert w = t
      ∧ (t.insert w).getWordCount = t.getWordCount
      ∧ ∀ q, (t.insert w).getSuggestions q = t.getSuggestions q := by
  have heq : t.insert w = t := by rw [Trie.insert_def, if_pos h]
  exact ⟨heq, by rw [heq], fun q => by rw [heq]⟩

/-- Claim C9 witness: inserting whitespace into the demo trie changes
nothing. -/
theorem c9_witness :
    (mkTrie demoWords).insert [' ', '\t'] = mkTrie demoWords
      ∧ ((mkTrie demoWords).insert [' ', '\t']).getWordCount
          = (mkTrie demoWords).getWordCount :=
  ⟨(c9_empty_insert_noop (mkTrie demoWords) [' ', '\t'] (by decide)).1,
    (c9_empty_insert_noop (mkTrie demoWords) [' ', '\t'] (by decide)).2.1⟩

/-- Claim C10: `suggest` is deterministic and read-only — in this pure
embedding a call is a function of the state and touches nothing — and its
result is independent of the unspecified iteration order of the child maps:
well-formed tries holding the same map content (equal canonical forms)
return identical suggestion lists for every query. -/
theorem c10_order_independent {t₁ t₂ : Trie} (hwf₁ : WFTrie t₁) (hwf₂ : WFTrie t₂)
    (h : NodeEquiv t₁.root t₂.root) (q : List Char) :
    t₁.getSuggestions q = t₂.getSuggestions q :=
  getSuggestions_congr hwf₁ hwf₂ h q

/-- Claim C10 witness: the same two-word content in two different child-map
orders answers the empty query identically. -/
theorem c10_witness :
    Trie.getSuggestions ⟨nodeA, 2⟩ [] = Trie.getSuggestions ⟨nodeB, 2⟩ [] :=
  @c10_order_independent ⟨nodeA, 2⟩ ⟨nodeB, 2⟩ wf_nodeA wf_nodeB (by rfl) []

end TrieAutosuggest
